import Mathlib

/-!
# Verification of the meta-search fusion/deduplication core

Shallow embedding of `src/fusion.py` and `src/utils.py`.

Modelling conventions:
* A Python result dict with keys `title, url, snippet, rank, source, score`
  becomes the structure `Result`.  A missing `url` and the empty string behave
  identically in the code (`str(item.get("url", ""))`), so `url` is a plain
  `String`; `rank` may be missing from a dict, so it is `Option Int` and the
  code's fallback `item.get("rank", 999999)` becomes `Option.getD 999999`;
  `score` is `None`-able, hence `Option ℚ`.
* Python floats are modelled as exact rationals `ℚ`.
* Strings are modelled at the ASCII level: `str.lower()` becomes the
  character-wise ASCII `pyLowerChar`, `str.strip()` strips the ASCII
  whitespace characters.
* Python's insertion-ordered `dict` accumulators in the fusion functions are
  modelled by association lists that update in place and append new keys at
  the end; `sorted(..., reverse=True)` (a stable descending sort) is modelled
  by a stable descending insertion sort.
* `deduplicate` keys empty-url items by object identity
  (`f"__empty__:{id(r)}"`).  In the pure model each list element is a
  distinct object, so identity is modelled by the element's position, and the
  disjointness of the `__empty__:` namespace from canonical-url keys is
  modelled by a sum type.
-/

namespace MetaSearch

/-- A single search hit, embedding the result dict schema
`title, url, snippet, rank (1-based), source, score (float|None)`. -/
structure Result where
  title : String := ""
  url : String := ""
  snippet : String := ""
  rank : Option Int := none
  source : String := ""
  score : Option ℚ := none
deriving DecidableEq, Repr

/-! ## URL canonicalization (`utils.canonicalize_url`) -/

/-- ASCII whitespace stripped by Python's `str.strip()`. -/
def isPySpace (c : Char) : Bool :=
  c == ' ' || c == '\t' || c == '\n' || c == '\r' || c == '\x0b' || c == '\x0c'

/-- `str.strip()` on the character list: drop whitespace from both ends. -/
def pyStrip (cs : List Char) : List Char :=
  ((cs.dropWhile isPySpace).reverse.dropWhile isPySpace).reverse

/-- ASCII model of Python `str.lower()` on one character. -/
def pyLowerChar (c : Char) : Char :=
  if 65 ≤ c.toNat ∧ c.toNat ≤ 90 then Char.ofNat (c.toNat + 32) else c

/-- `re.sub(r"^https?://(www\.)?", "", u)`: strip one leading `http://` or
`https://`, and a `www.` immediately after the scheme. -/
def stripSchemeWww (cs : List Char) : List Char :=
  let after : Option (List Char) :=
    if "http://".data.isPrefixOf cs then some (cs.drop 7)
    else if "https://".data.isPrefixOf cs then some (cs.drop 8)
    else none
  match after with
  | none => cs
  | some r => if "www.".data.isPrefixOf r then r.drop 4 else r

/-- Is a query/fragment starter. -/
def isQF (c : Char) : Bool := c == '#' || c == '?'

/-- `re.sub(r"[#?].*$", "", u)`.  Without `re.DOTALL`/`re.MULTILINE`, `.` does
not match a newline and `$` matches at the end of the string or just before a
string-final newline, so a (single, leftmost-greedy) match starts at a `#`/`?`
in the final line (of the string minus a trailing newline) and removes the rest
of that line; a string-final newline survives.  On newline-free strings this is
exactly "truncate at the first `#` or `?`". -/
def cutQueryFrag (cs : List Char) : List Char :=
  let core := if cs.getLast? = some '\n' then cs.dropLast else cs
  let tl : List Char := if cs.getLast? = some '\n' then ['\n'] else []
  let ll := (core.reverse.takeWhile (fun c => c != '\n')).reverse
  if ll.any isQF then
    core.take (core.length - ll.length) ++ ll.takeWhile (fun c => !(isQF c)) ++ tl
  else cs

/-- `utils.canonicalize_url` on the character list. -/
def canonL (cs : List Char) : List Char :=
  let u1 := pyStrip cs
  let u2 := u1.map pyLowerChar
  let u3 := stripSchemeWww u2
  let u4 := cutQueryFrag u3
  if u4.getLast? = some '/' then u4.dropLast else u4

/-- `utils.canonicalize_url`: strip + lower, drop scheme and `www.`, drop
query/fragment, drop one trailing slash. -/
def canonicalize_url (url : String) : String :=
  ⟨canonL url.data⟩

/-- The canonicalization pipeline exactly as the spec words it: trim
whitespace; lowercase; strip a leading scheme and a `www.` after it; truncate
at the FIRST `?` or `#` anywhere in the string; strip one trailing `/`.
(Second definition, written from the spec, for comparison with
`canonicalize_url`.) -/
def canonPipelineSpec (url : String) : String :=
  let u1 := pyStrip url.data
  let u2 := u1.map pyLowerChar
  let u3 := stripSchemeWww u2
  let u4 := u3.takeWhile (fun c => !(isQF c))
  ⟨if u4.getLast? = some '/' then u4.dropLast else u4⟩

/-! ## Deduplication (`utils.deduplicate`) -/

/-- Dedup keys: canonical urls live in one namespace, the per-object
`__empty__:{id(r)}` keys in a disjoint one (object identity = list position
in the pure model). -/
abbrev DKey := String ⊕ Nat

/-- `key = f"__empty__:{id(r)}" if not url else canonicalize_url(url)`:
the dedup key of the element at position `i`. -/
def dedupKey (i : Nat) (r : Result) : DKey :=
  if r.url = "" then Sum.inr i else Sum.inl (canonicalize_url r.url)

/-- `key in seen` for the dedup key set. -/
def keyMem (k : DKey) (l : List DKey) : Bool :=
  l.any (fun x => decide (x = k))

/-- The filtering loop of `deduplicate`: `seen` is the set of keys met so far,
`i` the position (standing for `id(r)`) of the next element. -/
def dedupGo (seen : List DKey) (i : Nat) : List Result → List Result
  | [] => []
  | r :: rs =>
    if keyMem (dedupKey i r) seen then dedupGo seen (i + 1) rs
    else r :: dedupGo (dedupKey i r :: seen) (i + 1) rs

/-- `for i, r in enumerate(unique, start=1): r["rank"] = i`. -/
def reRank (i : Int) : List Result → List Result
  | [] => []
  | r :: rs => { r with rank := some i } :: reRank (i + 1) rs

/-- `utils.deduplicate`: keep the first result per canonical-url key (each
empty-url result is its own key), then rewrite ranks to `1..len`. -/
def deduplicate (results : List Result) : List Result :=
  reRank 1 (dedupGo [] 0 results)

/-- Spec-level first-occurrence filter (second definition, from the spec's
words): keep `r` iff its url is empty, or no earlier element has a non-empty
url with the same canonical key.  `prev` holds the earlier elements. -/
def dedupSpecGo (prev : List Result) : List Result → List Result
  | [] => []
  | r :: rs =>
    if r.url = "" ∨ ∀ p ∈ prev, ¬(p.url ≠ "" ∧ canonicalize_url p.url = canonicalize_url r.url)
    then r :: dedupSpecGo (prev ++ [r]) rs
    else dedupSpecGo (prev ++ [r]) rs

/-! ## Min-max score normalization (`utils.minmax_normalize_scores`) -/

/-- `[float(r["score"]) for r in results if r.get("score") is not None]`. -/
def presentScores (results : List Result) : List ℚ :=
  results.filterMap Result.score

/-- `utils.minmax_normalize_scores`: if no score is present return the input
unchanged; if `min == max` set every present score to `1.0`; otherwise rescale
each present score `s` to `(s - lo) / (hi - lo)`. -/
def minmax_normalize_scores (results : List Result) : List Result :=
  match presentScores results with
  | [] => results
  | s :: ss =>
    let lo := ss.foldl min s
    let hi := ss.foldl max s
    if hi = lo then
      results.map (fun r =>
        match r.score with
        | none => r
        | some _ => { r with score := some 1 })
    else
      results.map (fun r =>
        match r.score with
        | none => r
        | some q => { r with score := some ((q - lo) / (hi - lo)) })

/-! ## Fusion (`fusion.rrf_fusion`, `fusion.combsum_fusion`)

Both functions keep two insertion-ordered dicts with the same keys in the same
order (`fused_scores` gets a key exactly when `representative` does), so the
pair is modelled as one association list of `Acc` entries. -/

/-- One accumulator entry: the raw-url key, its accumulated fused score
(`fused_scores[url]`) and the first result seen for it
(`representative[url]`). -/
structure Acc where
  url : String
  score : ℚ
  rep : Result
deriving DecidableEq, Repr

/-- `fused_scores[url] = fused_scores.get(url, 0.0) + c` together with
`if url not in representative: representative[url] = item` on insertion-ordered
dicts: update an existing entry in place, or append a new one at the end. -/
def updAcc (acc : List Acc) (u : String) (c : ℚ) (item : Result) : List Acc :=
  match acc with
  | [] => [⟨u, c, item⟩]
  | a :: as => if a.url = u then { a with score := a.score + c } :: as
               else a :: updAcc as u c item

/-- The RRF loop body for one item: skip empty urls, else add `1/(k + rank)`. -/
def rrfStep (k : Int) (acc : List Acc) (item : Result) : List Acc :=
  let url := item.url
  let rank := item.rank.getD 999999
  if url = "" then acc
  else updAcc acc url (1 / ((k : ℚ) + (rank : ℚ))) item

/-- The accumulation phase of `rrf_fusion`: the two nested `for` loops. -/
def rrfAccum (ranked_lists : List (List Result)) (k : Int) : List Acc :=
  ranked_lists.foldl (fun acc per_source => per_source.foldl (rrfStep k) acc) []

/-- The CombSUM contribution of one item: its score if present, else the
inverse-rank fallback `1.0 / max(rank, 1)`. -/
def combContrib (item : Result) : ℚ :=
  match item.score with
  | some s => s
  | none => 1 / ((max (item.rank.getD 999999) 1 : Int) : ℚ)

/-- The CombSUM loop body for one item. -/
def combStep (acc : List Acc) (item : Result) : List Acc :=
  if item.url = "" then acc
  else updAcc acc item.url (combContrib item) item

/-- The accumulation phase of `combsum_fusion`. -/
def combAccum (ranked_lists : List (List Result)) : List Acc :=
  ranked_lists.foldl (fun acc per_source => per_source.foldl combStep acc) []

/-- Stable descending insertion: place `x` before the first entry whose score
is `≤ x.score` (so earlier-seen entries win ties). -/
def insertDesc (x : Acc) : List Acc → List Acc
  | [] => [x]
  | y :: ys => if x.score < y.score then y :: insertDesc x ys else x :: y :: ys

/-- `sorted(fused_scores.items(), key=lambda x: x[1], reverse=True)`:
Python's sort is stable also with `reverse=True`, which a descending
insertion sort realises exactly. -/
def sortDesc : List Acc → List Acc
  | [] => []
  | x :: xs => insertDesc x (sortDesc xs)

/-- The output loop: `enumerate(ordered, start=1)` builds a fresh copy of each
representative with `rank`, `source` and `score` overwritten. -/
def finalize (i : Int) : List Acc → List Result
  | [] => []
  | a :: as => { a.rep with rank := some i, source := "fused", score := some a.score }
               :: finalize (i + 1) as

/-- `fusion.rrf_fusion`. -/
def rrf_fusion (ranked_lists : List (List Result)) (k : Int := 60) : List Result :=
  finalize 1 (sortDesc (rrfAccum ranked_lists k))

/-- `fusion.combsum_fusion`. -/
def combsum_fusion (ranked_lists : List (List Result)) : List Result :=
  finalize 1 (sortDesc (combAccum ranked_lists))

/-- First-occurrence list of strings, skipping ones already seen. -/
def keepFirstsAux (seen : List String) : List String → List String
  | [] => []
  | u :: us => if u ∈ seen then keepFirstsAux seen us
               else u :: keepFirstsAux (u :: seen) us

/-- The first-seen order of a list of strings with duplicates dropped. -/
def keepFirsts (us : List String) : List String :=
  keepFirstsAux [] us

/-- Per-item weight added by the RRF accumulation: `1 / (k + rank)`. -/
def rrfWeight (k : Int) (item : Result) : ℚ :=
  1 / ((k : ℚ) + ((item.rank.getD 999999 : Int) : ℚ))

/-- Common shape of the two accumulation loop bodies: skip empty urls, else
add the item's weight under its raw url. -/
def fuseStep (w : Result → ℚ) (acc : List Acc) (item : Result) : List Acc :=
  if item.url = "" then acc else updAcc acc item.url (w item) item

/-- `fused_scores.get(url)` together with its representative. -/
def findAcc (l : List Acc) (u : String) : Option Acc :=
  l.find? (fun a => a.url = u)

/-- Entries of the accumulator have non-empty urls, and each representative's
raw url is the entry's key. -/
def AccWF (l : List Acc) : Prop :=
  ∀ a ∈ l, a.url ≠ "" ∧ a.rep.url = a.url

/-- `min(scores)` of the source (`0` when no score is present, a case the code
never reaches). -/
def loOf (results : List Result) : ℚ :=
  match presentScores results with
  | [] => 0
  | s :: ss => ss.foldl min s

/-- `max(scores)` of the source (`0` when no score is present). -/
def hiOf (results : List Result) : ℚ :=
  match presentScores results with
  | [] => 0
  | s :: ss => ss.foldl max s

/-! ## Concrete scenario inputs from the spec -/

/-- List A rank 1: `a.com`. -/
def exA1 : Result := { url := "a.com", rank := some 1 }

/-- List A rank 2: `b.com`. -/
def exB2 : Result := { url := "b.com", rank := some 2 }

/-- List B rank 1: `b.com`. -/
def exB1 : Result := { url := "b.com", rank := some 1 }

/-- List B rank 2: `a.com`. -/
def exA2 : Result := { url := "a.com", rank := some 2 }

/-- `{url:"x", rank:1, score:None}`. -/
def exX1 : Result := { url := "x", rank := some 1 }

/-- `{url:"y", rank:2, score:None}`. -/
def exY2 : Result := { url := "y", rank := some 2 }

/-- A result whose raw url carries a scheme. -/
def exRawSchemed : Result := { url := "http://a.com", rank := some 1 }

/-- A result with the same canonical url as `exRawSchemed` but a different
raw url. -/
def exRawBare : Result := { url := "a.com", rank := some 1 }

/-- A result with an empty (missing) url. -/
def emptyR : Result := {}

/-! ## Heap model of the fusion/dedup effects

The pure functions above are value-level.  To state which dicts the Python
code mutates and which it copies, the same code is embedded once more in a
store-passing style: a `Heap` maps addresses (`id(...)` values) to `Result`
records, ranked lists hold addresses, `rep.copy()` allocates a fresh address
and `r["rank"] = i` writes through an existing one. -/

/-- A store of result objects, keyed by address. -/
abbrev Heap := List (Nat × Result)

/-- Read the record at address `a`, if allocated. -/
def hGet (h : Heap) (a : Nat) : Option Result :=
  (h.find? (fun p => p.1 = a)).map (·.2)

/-- Overwrite the record at address `a` (no-op when unallocated). -/
def hSet (h : Heap) (a : Nat) (r : Result) : Heap :=
  h.map (fun p => if p.1 = a then (a, r) else p)

/-- Dereference, defaulting to the empty record. -/
def derefH (h : Heap) (a : Nat) : Result :=
  (hGet h a).getD {}

/-- The dedup key of the object at address `a`: `id(r)` is the address. -/
def dedupKeyH (h : Heap) (a : Nat) : DKey :=
  if (derefH h a).url = "" then Sum.inr a else Sum.inl (canonicalize_url (derefH h a).url)

/-- The filtering loop of `deduplicate`, on addresses: it only reads. -/
def dedupGoH (h : Heap) (seen : List DKey) : List Nat → List Nat
  | [] => []
  | a :: as =>
    if keyMem (dedupKeyH h a) seen then dedupGoH h seen as
    else a :: dedupGoH h (dedupKeyH h a :: seen) as

/-- `for i, r in enumerate(unique, start=1): r["rank"] = i`: in-place rank
writes through the surviving addresses. -/
def writeRanksH (h : Heap) (i : Int) : List Nat → Heap
  | [] => h
  | a :: as => writeRanksH (hSet h a { derefH h a with rank := some i }) (i + 1) as

/-- `utils.deduplicate` in the heap model: returns the surviving input
addresses themselves, their records mutated in place. -/
def deduplicateH (h : Heap) (addrs : List Nat) : Heap × List Nat :=
  let u := dedupGoH h [] addrs
  (writeRanksH h 1 u, u)

/-- The fusion output loop in the heap model: each `rep.copy()` with
`rank`/`source`/`score` overwritten is allocated at a fresh address
(`next`, `next+1`, ...); returns final heap, output addresses, next free
address. -/
def allocOut (h : Heap) (i : Int) (next : Nat) : List Acc → Heap × List Nat × Nat
  | [] => (h, [], next)
  | a :: as =>
    let r : Result := { a.rep with rank := some i, source := "fused", score := some a.score }
    let rest := allocOut ((next, r) :: h) (i + 1) (next + 1) as
    (rest.1, next :: rest.2.1, rest.2.2)

/-- `fusion.rrf_fusion` in the heap model: the accumulation phase only reads
the input lists; the output phase allocates fresh copies. -/
def rrfFusionH (h : Heap) (lists : List (List Nat)) (k : Int) (next : Nat) :
    Heap × List Nat × Nat :=
  allocOut h 1 next (sortDesc (rrfAccum (lists.map (fun l => l.map (derefH h))) k))

/-- `fusion.combsum_fusion` in the heap model. -/
def combsumFusionH (h : Heap) (lists : List (List Nat)) (next : Nat) :
    Heap × List Nat × Nat :=
  allocOut h 1 next (sortDesc (combAccum (lists.map (fun l => l.map (derefH h)))))

/-- A two-object example heap. -/
def exHeap : Heap := [(0, exA1), (1, exRawSchemed)]

theorem rrfStep_eq_fuseStep (k : Int) : rrfStep k = fuseStep (rrfWeight k) := by
  funext acc item
  rfl

theorem combStep_eq_fuseStep : combStep = fuseStep combContrib := by
  funext acc item
  rfl

theorem rrfAccum_eq_foldl (ranked_lists : List (List Result)) (k : Int) :
    rrfAccum ranked_lists k = ranked_lists.flatten.foldl (fuseStep (rrfWeight k)) [] := by
  unfold rrfAccum
  rw [rrfStep_eq_fuseStep]
  exact (List.foldl_flatten _ _ _).symm

theorem combAccum_eq_foldl (ranked_lists : List (List Result)) :
    combAccum ranked_lists = ranked_lists.flatten.foldl (fuseStep combContrib) [] := by
  unfold combAccum
  rw [combStep_eq_fuseStep]
  exact (List.foldl_flatten _ _ _).symm

theorem findAcc_updAcc_self (acc : List Acc) (u : String) (c : ℚ) (it : Result) :
    findAcc (updAcc acc u c it) u =
      some (match findAcc acc u with
            | some a => { a with score := a.score + c }
            | none => ⟨u, c, it⟩) := by
  induction acc with
  | nil => simp [updAcc, findAcc]
  | cons a as ih =>
    by_cases h : a.url = u
    · simp [updAcc, findAcc, h]
    · simp only [updAcc, if_neg h, findAcc, List.find?_cons] at *
      simp only [decide_eq_false h, Bool.false_eq_true] at *
      simpa [findAcc] using ih

theorem findAcc_updAcc_ne (acc : List Acc) {u v : String} (h : v ≠ u) (c : ℚ) (it : Result) :
    findAcc (updAcc acc u c it) v = findAcc acc v := by
  have huv : ¬(u = v) := fun hh => h hh.symm
  induction acc with
  | nil => simp [updAcc, findAcc, huv]
  | cons a as ih =>
    by_cases hau : a.url = u
    · have hav : ¬(a.url = v) := by rw [hau]; exact huv
      simp [updAcc, findAcc, hau, hav, huv]
    · simp only [updAcc, if_neg hau]
      by_cases hav : a.url = v
      · simp [findAcc, hav]
      · simp only [findAcc, List.find?_cons, hav, decide_eq_true_eq, if_neg] at ih ⊢
        simp only [decide_eq_false hav, Bool.false_eq_true] at *
        exact ih

/-- Effect of the whole accumulation loop on one key `u ≠ ""`: the score
accumulates the weights of all occurrences of `u`, the representative is the
first occurrence. -/
theorem findAcc_foldl_fuseStep (w : Result → ℚ) (items : List Result) :
    ∀ (acc : List Acc) (u : String), u ≠ "" →
    findAcc (items.foldl (fuseStep w) acc) u =
      match findAcc acc u with
      | some a => some { a with score := a.score + ((items.filter (fun it => it.url = u)).map w).sum }
      | none =>
        match items.filter (fun it => it.url = u) with
        | [] => none
        | it :: _ => some ⟨u, ((items.filter (fun it => it.url = u)).map w).sum, it⟩ := by
  induction items with
  | nil =>
    intro acc u _
    match h : findAcc acc u with
    | none => simp
    | some a => simp
  | cons it its ih =>
    intro acc u hu
    rw [List.foldl_cons]
    by_cases hempty : it.url = ""
    · have hne : ¬(it.url = u) := by rw [hempty]; exact fun hh => hu hh.symm
      have hstep : fuseStep w acc it = acc := by simp [fuseStep, hempty]
      rw [hstep, ih acc u hu]
      simp [List.filter_cons, hne]
    · by_cases hitu : it.url = u
      · have hstep : fuseStep w acc it = updAcc acc u (w it) it := by
          unfold fuseStep
          rw [hitu, if_neg hu]
        rw [hstep, ih _ u hu, findAcc_updAcc_self]
        rcases h : findAcc acc u with _ | a
        · simp [h, List.filter_cons, hitu]
        · simp [h, List.filter_cons, hitu, add_assoc]
      · have hstep : fuseStep w acc it = updAcc acc it.url (w it) it := by
          simp [fuseStep, hempty]
        have hne : u ≠ it.url := fun hh => hitu hh.symm
        rw [hstep, ih _ u hu, findAcc_updAcc_ne _ hne]
        simp [List.filter_cons, hitu]

theorem keyMem_iff (k : DKey) (l : List DKey) : keyMem k l = true ↔ k ∈ l := by
  simp [keyMem, List.any_eq_true]

theorem keepFirstsAux_congr {s₁ s₂ : List String} (h : ∀ x, x ∈ s₁ ↔ x ∈ s₂) :
    ∀ l, keepFirstsAux s₁ l = keepFirstsAux s₂ l := by
  intro l
  induction l generalizing s₁ s₂ with
  | nil => rfl
  | cons u us ih =>
    by_cases hu : u ∈ s₁
    · rw [keepFirstsAux, keepFirstsAux, if_pos hu, if_pos ((h u).1 hu)]
      exact ih h
    · rw [keepFirstsAux, keepFirstsAux, if_neg hu, if_neg (fun hh => hu ((h u).2 hh))]
      refine congrArg _ (ih ?_)
      intro x
      simp only [List.mem_cons]
      exact or_congr Iff.rfl (h x)

theorem mem_keepFirstsAux {x : String} :
    ∀ {l s : List String}, x ∈ keepFirstsAux s l ↔ x ∈ l ∧ x ∉ s := by
  intro l
  induction l with
  | nil => simp [keepFirstsAux]
  | cons u us ih =>
    intro s
    by_cases hu : u ∈ s
    · rw [keepFirstsAux, if_pos hu, ih]
      simp only [List.mem_cons]
      constructor
      · rintro ⟨h1, h2⟩
        exact ⟨Or.inr h1, h2⟩
      · rintro ⟨h1, h2⟩
        rcases h1 with rfl | h1
        · exact absurd hu h2
        · exact ⟨h1, h2⟩
    · rw [keepFirstsAux, if_neg hu]
      simp only [List.mem_cons, ih, List.mem_cons]
      by_cases hx : x = u <;> simp [hx, hu]

theorem nodup_keepFirstsAux : ∀ (l s : List String), (keepFirstsAux s l).Nodup := by
  intro l
  induction l with
  | nil => intro s; simp [keepFirstsAux]
  | cons u us ih =>
    intro s
    by_cases hu : u ∈ s
    · rw [keepFirstsAux, if_pos hu]; exact ih s
    · rw [keepFirstsAux, if_neg hu]
      refine List.Nodup.cons ?_ (ih (u :: s))
      intro hmem
      exact (mem_keepFirstsAux.1 hmem).2 (List.mem_cons_self u s)

theorem updAcc_map_url (acc : List Acc) (u : String) (c : ℚ) (it : Result) :
    (updAcc acc u c it).map (·.url) =
      if u ∈ acc.map (·.url) then acc.map (·.url) else acc.map (·.url) ++ [u] := by
  induction acc with
  | nil => simp [updAcc]
  | cons a as ih =>
    by_cases h : a.url = u
    · simp [updAcc, h]
    · have : ¬(u = a.url) := fun hh => h hh.symm
      simp only [updAcc, if_neg h, List.map_cons, List.mem_cons, this, false_or, ih]
      by_cases hm : u ∈ as.map (·.url) <;> simp [hm]

/-- The urls of the accumulator after the loop: the old urls, then the
first-seen order of the new non-empty urls. -/
theorem foldl_fuseStep_map_url (w : Result → ℚ) :
    ∀ (items : List Result) (acc : List Acc),
    ((items.foldl (fuseStep w) acc).map (·.url)) =
      acc.map (·.url) ++ keepFirstsAux (acc.map (·.url)) ((items.map (·.url)).filter (· ≠ "")) := by
  intro items
  induction items with
  | nil => intro acc; simp [keepFirstsAux]
  | cons it its ih =>
    intro acc
    rw [List.foldl_cons]
    by_cases hempty : it.url = ""
    · have hstep : fuseStep w acc it = acc := by simp [fuseStep, hempty]
      rw [hstep, ih acc]
      simp [List.filter_cons, hempty]
    · have hstep : fuseStep w acc it = updAcc acc it.url (w it) it := by
        simp [fuseStep, hempty]
      rw [hstep, ih]
      rw [updAcc_map_url]
      by_cases hm : it.url ∈ acc.map (·.url)
      · rw [if_pos hm]
        congr 1
        rw [List.map_cons, List.filter_cons, if_pos (by simpa using hempty)]
        rw [keepFirstsAux, if_pos hm]
      · rw [if_neg hm]
        rw [List.map_cons, List.filter_cons, if_pos (by simpa using hempty)]
        rw [keepFirstsAux, if_neg hm, List.append_assoc, List.singleton_append]
        congr 1
        congr 1
        refine keepFirstsAux_congr ?_ _
        intro x
        simp only [List.mem_append, List.mem_singleton, List.mem_cons, List.not_mem_nil, or_false]
        exact or_comm

theorem updAcc_wf {acc : List Acc} (hacc : AccWF acc) {u : String} (hu : u ≠ "")
    {it : Result} (hit : it.url = u) (c : ℚ) : AccWF (updAcc acc u c it) := by
  induction acc with
  | nil =>
    intro a ha
    simp only [updAcc, List.mem_singleton] at ha
    subst ha
    exact ⟨hu, hit⟩
  | cons b bs ih =>
    intro a ha
    by_cases h : b.url = u
    · simp only [updAcc, if_pos h, List.mem_cons] at ha
      rcases ha with rfl | ha
      · exact ⟨by simpa [h] using hu, (hacc b (List.mem_cons_self _ _)).2⟩
      · exact hacc a (List.mem_cons_of_mem _ ha)
    · simp only [updAcc, if_neg h, List.mem_cons] at ha
      rcases ha with rfl | ha
      · exact hacc a (List.mem_cons_self _ _)
      · exact ih (fun x hx => hacc x (List.mem_cons_of_mem _ hx)) a ha

theorem foldl_fuseStep_wf (w : Result → ℚ) :
    ∀ (items : List Result) (acc : List Acc), AccWF acc →
    AccWF (items.foldl (fuseStep w) acc) := by
  intro items
  induction items with
  | nil => intro acc h; exact h
  | cons it its ih =>
    intro acc h
    rw [List.foldl_cons]
    refine ih _ ?_
    by_cases hempty : it.url = ""
    · simpa [fuseStep, hempty] using h
    · have hstep : fuseStep w acc it = updAcc acc it.url (w it) it := by
        simp [fuseStep, hempty]
      rw [hstep]
      exact updAcc_wf h hempty rfl _

theorem insertDesc_perm (x : Acc) : ∀ l : List Acc, List.Perm (insertDesc x l) (x :: l) := by
  intro l
  induction l with
  | nil => rfl
  | cons y ys ih =>
    rw [insertDesc]
    by_cases h : x.score < y.score
    · rw [if_pos h]
      exact (ih.cons y).trans (List.Perm.swap x y ys)
    · rw [if_neg h]

theorem sortDesc_perm : ∀ l : List Acc, List.Perm (sortDesc l) l := by
  intro l
  induction l with
  | nil => rfl
  | cons x xs ih => exact (insertDesc_perm x (sortDesc xs)).trans (ih.cons x)

theorem insertDesc_pairwise {x : Acc} {l : List Acc}
    (h : l.Pairwise (fun a b => b.score ≤ a.score)) :
    (insertDesc x l).Pairwise (fun a b => b.score ≤ a.score) := by
  induction l with
  | nil => simp [insertDesc]
  | cons y ys ih =>
    rw [insertDesc]
    rcases List.pairwise_cons.1 h with ⟨hy, hys⟩
    by_cases hlt : x.score < y.score
    · rw [if_pos hlt]
      refine List.pairwise_cons.2 ⟨?_, ih hys⟩
      intro b hb
      have hb' : b ∈ x :: ys := (insertDesc_perm x ys).mem_iff.1 hb
      rcases List.mem_cons.1 hb' with rfl | hb'
      · exact le_of_lt hlt
      · exact hy b hb'
    · rw [if_neg hlt]
      refine List.pairwise_cons.2 ⟨?_, h⟩
      intro b hb
      rcases List.mem_cons.1 hb with rfl | hb
      · exact le_of_not_lt hlt
      · exact le_trans (hy b hb) (le_of_not_lt hlt)

theorem sortDesc_pairwise : ∀ l : List Acc,
    (sortDesc l).Pairwise (fun a b => b.score ≤ a.score) := by
  intro l
  induction l with
  | nil => simp [sortDesc]
  | cons x xs ih => exact insertDesc_pairwise ih

theorem insertDesc_filter_score (x : Acc) (s : ℚ) : ∀ l : List Acc,
    (insertDesc x l).filter (fun a => a.score = s) =
      if x.score = s then x :: l.filter (fun a => a.score = s)
      else l.filter (fun a => a.score = s) := by
  intro l
  induction l with
  | nil =>
    by_cases h : x.score = s <;> simp [insertDesc, h]
  | cons y ys ih =>
    rw [insertDesc]
    by_cases hlt : x.score < y.score
    · rw [if_pos hlt]
      by_cases hx : x.score = s
      · have hy : ¬(y.score = s) := by
          intro hy
          rw [hx, hy] at hlt
          exact lt_irrefl s hlt
        simp [List.filter_cons, ih, hx, hy]
      · simp [List.filter_cons, ih, hx]
    · rw [if_neg hlt]
      by_cases hx : x.score = s <;> simp [List.filter_cons, hx]

theorem sortDesc_filter_score (s : ℚ) : ∀ l : List Acc,
    (sortDesc l).filter (fun a => a.score = s) = l.filter (fun a => a.score = s) := by
  intro l
  induction l with
  | nil => rfl
  | cons x xs ih =>
    rw [sortDesc, insertDesc_filter_score, ih]
    by_cases hx : x.score = s
    · rw [if_pos hx, List.filter_cons, if_pos (by simpa using hx)]
    · rw [if_neg hx, List.filter_cons, if_neg (by simpa using hx)]

theorem finalize_length : ∀ (l : List Acc) (i : Int), (finalize i l).length = l.length := by
  intro l
  induction l with
  | nil => intro i; rfl
  | cons a as ih => intro i; simp [finalize, ih]

theorem finalize_map_rank : ∀ (l : List Acc) (i : Int),
    (finalize i l).map (·.rank) =
      (List.range l.length).map (fun (n : Nat) => some (i + (n : Int))) := by
  intro l
  induction l with
  | nil => intro i; rfl
  | cons a as ih =>
    intro i
    rw [finalize, List.map_cons, ih (i + 1), List.length_cons, List.range_succ_eq_map,
      List.map_cons, List.map_map]
    refine congrArg₂ _ (by simp) ?_
    refine List.map_congr_left ?_
    intro n _
    simp only [Function.comp_apply, Option.some.injEq]
    push_cast
    ring

theorem finalize_map_score : ∀ (l : List Acc) (i : Int),
    (finalize i l).map (·.score) = l.map (fun a => some a.score) := by
  intro l
  induction l with
  | nil => intro i; rfl
  | cons a as ih => intro i; simp [finalize, ih]

theorem finalize_map_url : ∀ (l : List Acc) (i : Int),
    (finalize i l).map (·.url) = l.map (·.rep.url) := by
  intro l
  induction l with
  | nil => intro i; rfl
  | cons a as ih => intro i; simp [finalize, ih]

theorem mem_finalize_of_mem : ∀ {l : List Acc} (i : Int) {a : Acc}, a ∈ l →
    ∃ r ∈ finalize i l, r.url = a.rep.url ∧ r.score = some a.score := by
  intro l
  induction l with
  | nil => intro i a ha; cases ha
  | cons b bs ih =>
    intro i a ha
    rcases List.mem_cons.1 ha with rfl | ha
    · exact ⟨_, List.mem_cons_self _ _, rfl, rfl⟩
    · obtain ⟨r, hr, hurl, hscore⟩ := ih (i + 1) ha
      exact ⟨r, List.mem_cons_of_mem _ hr, hurl, hscore⟩

theorem mem_finalize : ∀ {l : List Acc} {i : Int} {r : Result}, r ∈ finalize i l →
    ∃ a ∈ l, r.url = a.rep.url ∧ r.score = some a.score := by
  intro l
  induction l with
  | nil => intro i r hr; cases hr
  | cons b bs ih =>
    intro i r hr
    rcases List.mem_cons.1 hr with rfl | hr
    · exact ⟨b, List.mem_cons_self _ _, rfl, rfl⟩
    · obtain ⟨a, ha, hurl, hscore⟩ := ih hr
      exact ⟨a, List.mem_cons_of_mem _ ha, hurl, hscore⟩

theorem finalize_pairwise {l : List Acc} (i : Int)
    (h : l.Pairwise (fun a b => b.score ≤ a.score)) :
    (finalize i l).Pairwise (fun r r' => r'.score.getD 0 ≤ r.score.getD 0) := by
  induction l generalizing i with
  | nil => simp [finalize]
  | cons a as ih =>
    rcases List.pairwise_cons.1 h with ⟨ha, has⟩
    rw [finalize]
    refine List.pairwise_cons.2 ⟨?_, ih (i + 1) has⟩
    intro r' hr'
    obtain ⟨b, hb, _, hscore⟩ := mem_finalize hr'
    simp only [hscore, Option.getD_some]
    exact ha b hb

theorem finalize_filter_score : ∀ (l : List Acc) (i : Int) (s : ℚ),
    ((finalize i l).filter (fun r => r.score = some s)).map (·.url) =
      (l.filter (fun a => a.score = s)).map (·.rep.url) := by
  intro l
  induction l with
  | nil => intro i s; rfl
  | cons a as ih =>
    intro i s
    rw [finalize, List.filter_cons, List.filter_cons]
    by_cases h : a.score = s
    · rw [if_pos (by simpa using h), if_pos (by simpa using h)]
      simp only [List.map_cons, ih]
    · rw [if_neg (by simpa using h), if_neg (by simpa using h), ih]

theorem range_one_shift (M : Nat) :
    (List.range M).map (fun (n : Nat) => some ((1 : Int) + (n : Int))) =
      (List.range' 1 M).map (fun (n : Nat) => some ((n : Int))) := by
  rw [List.range'_eq_map_range, List.map_map]
  refine List.map_congr_left ?_
  intro n _
  simp only [Function.comp_apply, Option.some.injEq]
  push_cast
  ring

theorem fused_ranks_contiguous (l : List Acc) :
    (finalize 1 (sortDesc l)).map (·.rank) =
      (List.range' 1 (finalize 1 (sortDesc l)).length).map (fun (n : Nat) => some ((n : Int))) := by
  rw [finalize_map_rank, finalize_length, range_one_shift]

theorem fused_scores_antitone (l : List Acc) :
    (finalize 1 (sortDesc l)).Pairwise (fun r r' => r'.score.getD 0 ≤ r.score.getD 0) :=
  finalize_pairwise 1 (sortDesc_pairwise l)

theorem fused_scores_present {l : List Acc} {i : Int} :
    ∀ r ∈ finalize i l, ∃ q : ℚ, r.score = some q := by
  intro r hr
  obtain ⟨a, _, _, hscore⟩ := mem_finalize hr
  exact ⟨a.score, hscore⟩

theorem rrfAccum_wf (ranked_lists : List (List Result)) (k : Int) :
    AccWF (rrfAccum ranked_lists k) := by
  rw [rrfAccum_eq_foldl]
  refine foldl_fuseStep_wf _ _ [] ?_
  intro a ha
  cases ha

theorem combAccum_wf (ranked_lists : List (List Result)) :
    AccWF (combAccum ranked_lists) := by
  rw [combAccum_eq_foldl]
  refine foldl_fuseStep_wf _ _ [] ?_
  intro a ha
  cases ha

theorem rrfAccum_map_url (ranked_lists : List (List Result)) (k : Int) :
    (rrfAccum ranked_lists k).map (·.url) =
      keepFirsts ((ranked_lists.flatten.map (·.url)).filter (· ≠ "")) := by
  rw [rrfAccum_eq_foldl, foldl_fuseStep_map_url]
  simp [keepFirsts]

theorem combAccum_map_url (ranked_lists : List (List Result)) :
    (combAccum ranked_lists).map (·.url) =
      keepFirsts ((ranked_lists.flatten.map (·.url)).filter (· ≠ "")) := by
  rw [combAccum_eq_foldl, foldl_fuseStep_map_url]
  simp [keepFirsts]

theorem fused_out_filter {l : List Acc} (hwf : AccWF l) (s : ℚ) :
    ((finalize 1 (sortDesc l)).filter (fun r => r.score = some s)).map (·.url) =
      (l.filter (fun a => a.score = s)).map (·.url) := by
  rw [finalize_filter_score, sortDesc_filter_score]
  refine List.map_congr_left ?_
  intro a ha
  exact (hwf a (List.mem_of_mem_filter ha)).2

/-- C4: for every fusion output of either function, the `rank` fields read in
list order are exactly `1, 2, ..., M` (`M` the output length), and the fused
scores are non-increasing along that order (every entry carries a score). -/
theorem fusion_output_ranks_contiguous_scores_antitone
    (ranked_lists : List (List Result)) (k : Int) :
    ((rrf_fusion ranked_lists k).map (·.rank) =
      (List.range' 1 (rrf_fusion ranked_lists k).length).map (fun (n : Nat) => some ((n : Int))))
    ∧ (rrf_fusion ranked_lists k).Pairwise (fun r r' => r'.score.getD 0 ≤ r.score.getD 0)
    ∧ (∀ r ∈ rrf_fusion ranked_lists k, ∃ q : ℚ, r.score = some q)
    ∧ ((combsum_fusion ranked_lists).map (·.rank) =
      (List.range' 1 (combsum_fusion ranked_lists).length).map (fun (n : Nat) => some ((n : Int))))
    ∧ (combsum_fusion ranked_lists).Pairwise (fun r r' => r'.score.getD 0 ≤ r.score.getD 0)
    ∧ (∀ r ∈ combsum_fusion ranked_lists, ∃ q : ℚ, r.score = some q) :=
  ⟨fused_ranks_contiguous _, fused_scores_antitone _, fused_scores_present,
   fused_ranks_contiguous _, fused_scores_antitone _, fused_scores_present⟩

/-- C3: both fusion outputs are ordered by descending accumulated score;
entries with equal scores keep the order in which their urls were first
encountered during the outer iteration (the accumulator is in first-seen
order, and the sort is stable on it); in the spec's two-list scenario, RRF
with `k=60` ties `a.com` and `b.com` at `1/61 + 1/62` and puts `a.com`
first. -/
theorem fusion_sorted_desc_ties_first_seen
    (ranked_lists : List (List Result)) (k : Int) :
    ((rrf_fusion ranked_lists k).Pairwise (fun r r' => r'.score.getD 0 ≤ r.score.getD 0)
    ∧ (∀ s : ℚ, ((rrf_fusion ranked_lists k).filter (fun r => r.score = some s)).map (·.url)
        = ((rrfAccum ranked_lists k).filter (fun a => a.score = s)).map (·.url))
    ∧ (rrfAccum ranked_lists k).map (·.url)
        = keepFirsts ((ranked_lists.flatten.map (·.url)).filter (· ≠ "")))
    ∧ ((combsum_fusion ranked_lists).Pairwise (fun r r' => r'.score.getD 0 ≤ r.score.getD 0)
    ∧ (∀ s : ℚ, ((combsum_fusion ranked_lists).filter (fun r => r.score = some s)).map (·.url)
        = ((combAccum ranked_lists).filter (fun a => a.score = s)).map (·.url))
    ∧ (combAccum ranked_lists).map (·.url)
        = keepFirsts ((ranked_lists.flatten.map (·.url)).filter (· ≠ "")))
    ∧ rrf_fusion [[exA1, exB2], [exB1, exA2]] 60 =
      [{ exA1 with rank := some 1, source := "fused", score := some (1/61 + 1/62) },
       { exB2 with rank := some 2, source := "fused", score := some (1/61 + 1/62) }] := by
  refine ⟨⟨fused_scores_antitone _, ?_, rrfAccum_map_url _ _⟩,
         ⟨fused_scores_antitone _, ?_, combAccum_map_url _⟩, ?_⟩
  · intro s
    exact fused_out_filter (rrfAccum_wf ranked_lists k) s
  · intro s
    exact fused_out_filter (combAccum_wf ranked_lists) s
  · norm_num [rrf_fusion, rrfAccum, rrfStep, updAcc, sortDesc, insertDesc, finalize,
      exA1, exB2, exB1, exA2]

/-- The fused output has an entry for `u` carrying the accumulated score,
whenever the accumulation characterization names one. -/
theorem fused_out_of_findAcc {ranked_lists : List (List Result)} {k : Int} {u : String} {a : Acc}
    (hfind : findAcc (rrfAccum ranked_lists k) u = some a) :
    ∃ r ∈ rrf_fusion ranked_lists k, r.url = a.rep.url ∧ r.score = some a.score := by
  have hmem : a ∈ rrfAccum ranked_lists k :=
    List.mem_of_find?_eq_some
      (show List.find? (fun x => decide (x.url = u)) (rrfAccum ranked_lists k) = some a from hfind)
  have hmem' : a ∈ sortDesc (rrfAccum ranked_lists k) :=
    (sortDesc_perm _).mem_iff.2 hmem
  exact mem_finalize_of_mem 1 hmem'

theorem fused_out_of_findAcc_comb {ranked_lists : List (List Result)} {u : String} {a : Acc}
    (hfind : findAcc (combAccum ranked_lists) u = some a) :
    ∃ r ∈ combsum_fusion ranked_lists, r.url = a.rep.url ∧ r.score = some a.score := by
  have hmem : a ∈ combAccum ranked_lists :=
    List.mem_of_find?_eq_some
      (show List.find? (fun x => decide (x.url = u)) (combAccum ranked_lists) = some a from hfind)
  have hmem' : a ∈ sortDesc (combAccum ranked_lists) :=
    (sortDesc_perm _).mem_iff.2 hmem
  exact mem_finalize_of_mem 1 hmem'

/-- The accumulated entry for an occurring non-empty url `u`, at top level:
score is the sum of weights over occurrences, representative the first
occurrence. -/
theorem findAcc_accum_of_occurs (w : Result → ℚ) {ranked_lists : List (List Result)} {u : String}
    (hu : u ≠ "") {it₁ : Result} {rest : List Result}
    (hfil : ranked_lists.flatten.filter (fun it => it.url = u) = it₁ :: rest) :
    findAcc (ranked_lists.flatten.foldl (fuseStep w) []) u =
      some ⟨u, ((ranked_lists.flatten.filter (fun it => it.url = u)).map w).sum, it₁⟩ := by
  have hfind := findAcc_foldl_fuseStep w ranked_lists.flatten [] u hu
  rw [show findAcc [] u = none from rfl] at hfind
  rw [hfil] at hfind ⊢
  simpa using hfind

/-- C1: for inputs whose results carry (1-based) ranks and positive `k`,
`rrf_fusion` gives each occurring non-empty raw url the fused score
`Σ 1/(k + rank)` over all its occurrences; keying is by the raw url string,
not the canonical form (two urls with equal canonical forms stay separate). -/
theorem rrf_fused_score_eq_sum_inverse_ranks :
    (∀ (ranked_lists : List (List Result)) (k : Int) (u : String),
      0 < k →
      (∀ it ∈ ranked_lists.flatten, ∃ n : Int, it.rank = some n ∧ 1 ≤ n) →
      u ≠ "" →
      (∃ it ∈ ranked_lists.flatten, it.url = u) →
      ∃ r ∈ rrf_fusion ranked_lists k, r.url = u ∧
        r.score = some (((ranked_lists.flatten.filter (fun it => it.url = u)).map
          (fun it => 1 / ((k : ℚ) + ((it.rank.getD 999999 : Int) : ℚ)))).sum))
    ∧ (rrf_fusion [[exRawSchemed, exRawBare]] 60).map (·.url) = ["http://a.com", "a.com"]
    ∧ canonicalize_url exRawSchemed.url = canonicalize_url exRawBare.url := by
  refine ⟨?_, ?_, by decide⟩
  · intro ranked_lists k u _ _ hu hocc
    obtain ⟨it₀, hit₀mem, hit₀url⟩ := hocc
    have hit₀fil : it₀ ∈ ranked_lists.flatten.filter (fun it => it.url = u) :=
      List.mem_filter.2 ⟨hit₀mem, by simpa using hit₀url⟩
    rcases hfil : ranked_lists.flatten.filter (fun it => it.url = u) with _ | ⟨it₁, rest⟩
    · rw [hfil] at hit₀fil; cases hit₀fil
    · have hfind : findAcc (rrfAccum ranked_lists k) u =
          some ⟨u, ((ranked_lists.flatten.filter (fun it => it.url = u)).map (rrfWeight k)).sum, it₁⟩ := by
        rw [rrfAccum_eq_foldl]
        exact findAcc_accum_of_occurs (rrfWeight k) hu hfil
      obtain ⟨r, hr, hurl, hscore⟩ := fused_out_of_findAcc hfind
      have hit₁url : it₁.url = u := by
        have : it₁ ∈ ranked_lists.flatten.filter (fun it => it.url = u) := by
          rw [hfil]; exact List.mem_cons_self _ _
        simpa using (List.mem_filter.1 this).2
      exact ⟨r, hr, by rw [hurl]; exact hit₁url, hscore⟩
  · norm_num [rrf_fusion, rrfAccum, rrfStep, updAcc, sortDesc, insertDesc, finalize,
      exRawSchemed, exRawBare]

/-- Witness for C1 at a concrete input. -/
theorem rrf_fused_score_eq_sum_inverse_ranks_witness :
    ∃ r ∈ rrf_fusion [[exA1]] 60, r.url = "a.com" ∧
      r.score = some ((([[exA1]] : List (List Result)).flatten.filter
        (fun it => it.url = "a.com")).map
          (fun it => 1 / (((60 : Int) : ℚ) + ((it.rank.getD 999999 : Int) : ℚ)))).sum :=
  rrf_fused_score_eq_sum_inverse_ranks.1 [[exA1]] 60 "a.com" (by norm_num)
    (by
      intro it hit
      simp only [List.flatten, List.append_nil] at hit
      rcases List.mem_singleton.1 hit with rfl
      exact ⟨1, rfl, by norm_num⟩)
    (by decide)
    ⟨exA1, by simp, rfl⟩

/-- C2: for inputs whose results carry ranks of at least 1, `combsum_fusion` gives each
occurring non-empty raw url the sum of per-occurrence contributions — the
occurrence's score when present, else `1/max(rank, 1)`; on the spec's
single-list example the fused scores are `1.0` for `x` and `0.5` for `y`,
with `x` first. -/
theorem combsum_fused_score_eq_sum_contributions :
    (∀ (ranked_lists : List (List Result)) (u : String),
      (∀ it ∈ ranked_lists.flatten, ∃ n : Int, it.rank = some n ∧ 1 ≤ n) →
      u ≠ "" →
      (∃ it ∈ ranked_lists.flatten, it.url = u) →
      ∃ r ∈ combsum_fusion ranked_lists, r.url = u ∧
        r.score = some (((ranked_lists.flatten.filter (fun it => it.url = u)).map
          (fun it => match it.score with
                     | some s => s
                     | none => 1 / ((max (it.rank.getD 999999) 1 : Int) : ℚ))).sum))
    ∧ combsum_fusion [[exX1, exY2]] =
        [{ exX1 with rank := some 1, source := "fused", score := some 1 },
         { exY2 with rank := some 2, source := "fused", score := some (1/2) }] := by
  constructor
  · intro ranked_lists u _ hu hocc
    obtain ⟨it₀, hit₀mem, hit₀url⟩ := hocc
    have hit₀fil : it₀ ∈ ranked_lists.flatten.filter (fun it => it.url = u) :=
      List.mem_filter.2 ⟨hit₀mem, by simpa using hit₀url⟩
    rcases hfil : ranked_lists.flatten.filter (fun it => it.url = u) with _ | ⟨it₁, rest⟩
    · rw [hfil] at hit₀fil; cases hit₀fil
    · have hfind : findAcc (combAccum ranked_lists) u =
          some ⟨u, ((ranked_lists.flatten.filter (fun it => it.url = u)).map combContrib).sum, it₁⟩ := by
        rw [combAccum_eq_foldl]
        exact findAcc_accum_of_occurs combContrib hu hfil
      obtain ⟨r, hr, hurl, hscore⟩ := fused_out_of_findAcc_comb hfind
      have hit₁url : it₁.url = u := by
        have : it₁ ∈ ranked_lists.flatten.filter (fun it => it.url = u) := by
          rw [hfil]; exact List.mem_cons_self _ _
        simpa using (List.mem_filter.1 this).2
      exact ⟨r, hr, by rw [hurl]; exact hit₁url, hscore⟩
  · norm_num [combsum_fusion, combAccum, combStep, combContrib, updAcc, sortDesc, insertDesc,
      finalize, exX1, exY2]

/-- Witness for C2 at a concrete input. -/
theorem combsum_fused_score_eq_sum_contributions_witness :
    ∃ r ∈ combsum_fusion [[exX1]], r.url = "x" ∧
      r.score = some ((([[exX1]] : List (List Result)).flatten.filter
        (fun it => it.url = "x")).map
          (fun it => match it.score with
                     | some s => s
                     | none => 1 / ((max (it.rank.getD 999999) 1 : Int) : ℚ))).sum :=
  combsum_fused_score_eq_sum_contributions.1 [[exX1]] "x"
    (by
      intro it hit
      simp only [List.flatten, List.append_nil] at hit
      rcases List.mem_singleton.1 hit with rfl
      exact ⟨1, rfl, by norm_num⟩)
    (by decide)
    ⟨exX1, by simp, rfl⟩

theorem fused_urls_perm {l : List Acc} (hwf : AccWF l) :
    List.Perm ((finalize 1 (sortDesc l)).map (·.url)) (l.map (·.url)) := by
  rw [finalize_map_url]
  have hmap : (sortDesc l).map (·.rep.url) = (sortDesc l).map (·.url) :=
    List.map_congr_left (fun a ha => (hwf a ((sortDesc_perm l).mem_iff.1 ha)).2)
  rw [hmap]
  exact (sortDesc_perm l).map _

theorem mem_keepFirsts_urls {ranked_lists : List (List Result)} {u : String} :
    u ∈ keepFirsts ((ranked_lists.flatten.map (·.url)).filter (· ≠ "")) ↔
      (u ≠ "" ∧ ∃ it ∈ ranked_lists.flatten, it.url = u) := by
  rw [keepFirsts, mem_keepFirstsAux]
  simp only [List.mem_filter, List.mem_map, List.not_mem_nil, not_false_iff, and_true,
    decide_eq_true_eq]
  constructor
  · rintro ⟨⟨it, hit, rfl⟩, hne⟩
    exact ⟨hne, it, hit, rfl⟩
  · rintro ⟨hne, it, hit, rfl⟩
    exact ⟨⟨it, hit, rfl⟩, hne⟩

theorem count_urls_fused {l : List Acc} (hwf : AccWF l) {v : List String}
    (hurls : l.map (·.url) = keepFirsts v) (u : String) :
    ((finalize 1 (sortDesc l)).map (·.url)).count u = if u ∈ keepFirsts v then 1 else 0 := by
  rw [(fused_urls_perm hwf).count_eq, hurls]
  by_cases hm : u ∈ keepFirsts v
  · rw [if_pos hm]
    exact List.count_eq_one_of_mem (nodup_keepFirstsAux _ _) hm
  · rw [if_neg hm]
    exact List.count_eq_zero.2 hm

theorem fused_urls_ne_empty {l : List Acc} (hwf : AccWF l) :
    ∀ r ∈ finalize 1 (sortDesc l), r.url ≠ "" := by
  intro r hr
  obtain ⟨a, ha, hurl, _⟩ := mem_finalize hr
  have ha' := hwf a ((sortDesc_perm l).mem_iff.1 ha)
  rw [hurl, ha'.2]
  exact ha'.1

theorem urls_filter_nil_of_all_empty {ranked_lists : List (List Result)}
    (h : ∀ it ∈ ranked_lists.flatten, it.url = "") :
    ((ranked_lists.flatten.map (·.url)).filter (· ≠ "")) = [] := by
  rw [List.filter_eq_nil_iff]
  intro a ha
  obtain ⟨it, hit, rfl⟩ := List.mem_map.1 ha
  simpa using h it hit

theorem rrfAccum_nil_of_all_empty {ranked_lists : List (List Result)} (k : Int)
    (h : ∀ it ∈ ranked_lists.flatten, it.url = "") :
    rrfAccum ranked_lists k = [] := by
  have hmap := rrfAccum_map_url ranked_lists k
  rw [urls_filter_nil_of_all_empty h] at hmap
  exact List.map_eq_nil_iff.1 hmap

theorem combAccum_nil_of_all_empty {ranked_lists : List (List Result)}
    (h : ∀ it ∈ ranked_lists.flatten, it.url = "") :
    combAccum ranked_lists = [] := by
  have hmap := combAccum_map_url ranked_lists
  rw [urls_filter_nil_of_all_empty h] at hmap
  exact List.map_eq_nil_iff.1 hmap

/-- C8: empty-url results contribute nothing to either fusion and never show
up in the output; an input with no non-empty url (in particular, no lists at
all) fuses to the empty list; and the output has exactly one entry per
distinct non-empty raw url occurring in the input. -/
theorem fusion_skips_empty_urls_one_entry_per_url
    (ranked_lists : List (List Result)) (k : Int) :
    (∀ r ∈ rrf_fusion ranked_lists k, r.url ≠ "")
    ∧ (∀ u : String, ((rrf_fusion ranked_lists k).map (·.url)).count u =
        if u ≠ "" ∧ ∃ it ∈ ranked_lists.flatten, it.url = u then 1 else 0)
    ∧ ((∀ it ∈ ranked_lists.flatten, it.url = "") → rrf_fusion ranked_lists k = [])
    ∧ (∀ r ∈ combsum_fusion ranked_lists, r.url ≠ "")
    ∧ (∀ u : String, ((combsum_fusion ranked_lists).map (·.url)).count u =
        if u ≠ "" ∧ ∃ it ∈ ranked_lists.flatten, it.url = u then 1 else 0)
    ∧ ((∀ it ∈ ranked_lists.flatten, it.url = "") → combsum_fusion ranked_lists = [])
    ∧ rrf_fusion [] k = [] ∧ combsum_fusion [] = [] := by
  refine ⟨fused_urls_ne_empty (rrfAccum_wf _ _), ?_, ?_,
         fused_urls_ne_empty (combAccum_wf _), ?_, ?_, rfl, rfl⟩
  · intro u
    rw [show rrf_fusion ranked_lists k = finalize 1 (sortDesc (rrfAccum ranked_lists k)) from rfl,
      count_urls_fused (rrfAccum_wf ranked_lists k) (rrfAccum_map_url ranked_lists k) u]
    simp only [mem_keepFirsts_urls]
  · intro h
    show finalize 1 (sortDesc (rrfAccum ranked_lists k)) = []
    rw [rrfAccum_nil_of_all_empty k h]
    rfl
  · intro u
    rw [show combsum_fusion ranked_lists = finalize 1 (sortDesc (combAccum ranked_lists)) from rfl,
      count_urls_fused (combAccum_wf ranked_lists) (combAccum_map_url ranked_lists) u]
    simp only [mem_keepFirsts_urls]
  · intro h
    show finalize 1 (sortDesc (combAccum ranked_lists)) = []
    rw [combAccum_nil_of_all_empty h]
    rfl

/-- Witness for C8 at a concrete input. -/
theorem fusion_skips_empty_urls_one_entry_per_url_witness :
    rrf_fusion [[emptyR]] 60 = [] ∧ combsum_fusion [[emptyR]] = [] := by
  have hall : ∀ it ∈ ([[emptyR]] : List (List Result)).flatten, it.url = "" := by
    intro it hit
    simp only [List.flatten, List.append_nil] at hit
    rcases List.mem_singleton.1 hit with rfl
    rfl
  exact ⟨(fusion_skips_empty_urls_one_entry_per_url [[emptyR]] 60).2.2.1 hall,
         (fusion_skips_empty_urls_one_entry_per_url [[emptyR]] 60).2.2.2.2.2.1 hall⟩

/-- The seen-set/position loop of `deduplicate` computes the spec's
first-occurrence filter: `seen` holds exactly the canonical keys of the
earlier non-empty-url elements (position keys stay below the next `id`). -/
theorem dedupGo_eq_dedupSpecGo :
    ∀ (rs : List Result) (seen : List DKey) (prev : List Result) (i : Nat),
    (∀ s : String, Sum.inl s ∈ seen ↔ ∃ p ∈ prev, p.url ≠ "" ∧ canonicalize_url p.url = s) →
    (∀ j : Nat, Sum.inr j ∈ seen → j < i) →
    dedupGo seen i rs = dedupSpecGo prev rs := by
  intro rs
  induction rs with
  | nil => intro seen prev i _ _; rfl
  | cons r rs ih =>
    intro seen prev i H1 H2
    by_cases hurl : r.url = ""
    · have hkey : dedupKey i r = Sum.inr i := by rw [dedupKey, if_pos hurl]
      have hnotin : ¬(keyMem (dedupKey i r) seen = true) := by
        rw [keyMem_iff, hkey]
        intro hmem
        exact lt_irrefl i (H2 i hmem)
      rw [dedupGo, if_neg hnotin, dedupSpecGo, if_pos (Or.inl hurl), hkey]
      congr 1
      refine ih _ _ (i + 1) ?_ ?_
      · intro s
        simp only [List.mem_cons]
        constructor
        · rintro (hs | hs)
          · cases hs
          · obtain ⟨p, hp, h1, h2⟩ := (H1 s).1 hs
            exact ⟨p, List.mem_append_left _ hp, h1, h2⟩
        · rintro ⟨p, hp, h1, h2⟩
          rcases List.mem_append.1 hp with hp | hp
          · exact Or.inr ((H1 s).2 ⟨p, hp, h1, h2⟩)
          · rcases List.mem_singleton.1 hp with rfl
            exact absurd hurl h1
      · intro j hj
        rcases List.mem_cons.1 hj with hj | hj
        · cases Sum.inr.inj hj
          exact Nat.lt_succ_self i
        · exact Nat.lt_succ_of_lt (H2 j hj)
    · have hkey : dedupKey i r = Sum.inl (canonicalize_url r.url) := by
        rw [dedupKey, if_neg hurl]
      by_cases hseen : keyMem (dedupKey i r) seen = true
      · have hdup : ∃ p ∈ prev, p.url ≠ "" ∧ canonicalize_url p.url = canonicalize_url r.url :=
          (H1 _).1 (hkey ▸ (keyMem_iff _ _).1 hseen)
        have hcond : ¬(r.url = "" ∨ ∀ p ∈ prev,
            ¬(p.url ≠ "" ∧ canonicalize_url p.url = canonicalize_url r.url)) := by
          rintro (h | h)
          · exact hurl h
          · obtain ⟨p, hp, h1, h2⟩ := hdup
            exact h p hp ⟨h1, h2⟩
        rw [dedupGo, if_pos hseen, dedupSpecGo, if_neg hcond]
        refine ih _ _ (i + 1) ?_ ?_
        · intro s
          constructor
          · intro hs
            obtain ⟨p, hp, h1, h2⟩ := (H1 s).1 hs
            exact ⟨p, List.mem_append_left _ hp, h1, h2⟩
          · rintro ⟨p, hp, h1, h2⟩
            rcases List.mem_append.1 hp with hp | hp
            · exact (H1 s).2 ⟨p, hp, h1, h2⟩
            · rcases List.mem_singleton.1 hp with rfl
              rw [← h2, ← hkey]
              exact (keyMem_iff _ _).1 hseen
        · intro j hj
          exact Nat.lt_succ_of_lt (H2 j hj)
      · have hcond : r.url = "" ∨ ∀ p ∈ prev,
            ¬(p.url ≠ "" ∧ canonicalize_url p.url = canonicalize_url r.url) := by
          right
          intro p hp h
          refine hseen ?_
          rw [keyMem_iff, hkey]
          exact (H1 _).2 ⟨p, hp, h.1, h.2⟩
        rw [dedupGo, if_neg hseen, dedupSpecGo, if_pos hcond, hkey]
        congr 1
        refine ih _ _ (i + 1) ?_ ?_
        · intro s
          simp only [List.mem_cons]
          constructor
          · rintro (hs | hs)
            · cases Sum.inl.inj hs
              exact ⟨r, List.mem_append_right _ (List.mem_singleton_self r), hurl, rfl⟩
            · obtain ⟨p, hp, h1, h2⟩ := (H1 s).1 hs
              exact ⟨p, List.mem_append_left _ hp, h1, h2⟩
          · rintro ⟨p, hp, h1, h2⟩
            rcases List.mem_append.1 hp with hp | hp
            · exact Or.inr ((H1 s).2 ⟨p, hp, h1, h2⟩)
            · rcases List.mem_singleton.1 hp with rfl
              rw [← h2]
              exact Or.inl rfl
        · intro j hj
          rcases List.mem_cons.1 hj with hj | hj
          · cases hj
          · exact Nat.lt_succ_of_lt (H2 j hj)

theorem reRank_length : ∀ (l : List Result) (i : Int), (reRank i l).length = l.length := by
  intro l
  induction l with
  | nil => intro i; rfl
  | cons r rs ih => intro i; simp [reRank, ih]

theorem reRank_map_rank : ∀ (l : List Result) (i : Int),
    (reRank i l).map (·.rank) =
      (List.range l.length).map (fun (n : Nat) => some (i + (n : Int))) := by
  intro l
  induction l with
  | nil => intro i; rfl
  | cons r rs ih =>
    intro i
    rw [reRank, List.map_cons, ih (i + 1), List.length_cons, List.range_succ_eq_map,
      List.map_cons, List.map_map]
    refine congrArg₂ _ (by simp) ?_
    refine List.map_congr_left ?_
    intro n _
    simp only [Function.comp_apply, Option.some.injEq]
    push_cast
    ring

theorem deduplicate_ranks_contiguous (l : List Result) :
    (reRank 1 l).map (·.rank) =
      (List.range' 1 (reRank 1 l).length).map (fun (n : Nat) => some ((n : Int))) := by
  rw [reRank_map_rank, reRank_length, range_one_shift]

/-- C5: `deduplicate` equals the spec's first-occurrence filter — among
non-empty urls exactly the first result per canonical key survives regardless
of score/rank, every empty-url result is kept as its own key (three empty-url
results all survive), first-seen order is preserved, and ranks of survivors
are rewritten to `1..len(output)`. -/
theorem deduplicate_keeps_first_by_canonical_key :
    (∀ results : List Result,
      deduplicate results = reRank 1 (dedupSpecGo [] results)
      ∧ (deduplicate results).map (·.rank) =
          (List.range' 1 (deduplicate results).length).map (fun (n : Nat) => some ((n : Int))))
    ∧ deduplicate [emptyR, emptyR, emptyR] =
        [{ emptyR with rank := some 1 }, { emptyR with rank := some 2 },
         { emptyR with rank := some 3 }] := by
  constructor
  · intro results
    constructor
    · rw [deduplicate]
      congr 1
      refine dedupGo_eq_dedupSpecGo results [] [] 0 ?_ ?_
      · intro s
        simp
      · intro j hj
        cases hj
    · exact deduplicate_ranks_contiguous _
  · decide

/-- A non-empty-url element kept by the dedup loop has a canonical key not in
`seen`. -/
theorem mem_dedupGo_key_not_seen :
    ∀ (rs : List Result) (seen : List DKey) (i : Nat) (r : Result),
    r ∈ dedupGo seen i rs → r.url ≠ "" → Sum.inl (canonicalize_url r.url) ∉ seen := by
  intro rs
  induction rs with
  | nil => intro seen i r hr; cases hr
  | cons r' rs ih =>
    intro seen i r hr hurl
    rw [dedupGo] at hr
    by_cases hseen : keyMem (dedupKey i r') seen = true
    · rw [if_pos hseen] at hr
      exact ih _ _ _ hr hurl
    · rw [if_neg hseen] at hr
      rcases List.mem_cons.1 hr with rfl | hr
      · intro hmem
        refine hseen ?_
        rw [keyMem_iff, dedupKey, if_neg hurl]
        exact hmem
      · intro hmem
        exact ih _ _ _ hr hurl (List.mem_cons_of_mem _ hmem)

/-- Distinct survivors of the dedup loop have distinct canonical keys (when
both urls are non-empty). -/
theorem dedupGo_pairwise_keys :
    ∀ (rs : List Result) (seen : List DKey) (i : Nat),
    (dedupGo seen i rs).Pairwise
      (fun a b => a.url ≠ "" → b.url ≠ "" →
        canonicalize_url a.url ≠ canonicalize_url b.url) := by
  intro rs
  induction rs with
  | nil => intro seen i; simp [dedupGo]
  | cons r' rs ih =>
    intro seen i
    rw [dedupGo]
    by_cases hseen : keyMem (dedupKey i r') seen = true
    · rw [if_pos hseen]
      exact ih _ _
    · rw [if_neg hseen]
      refine List.pairwise_cons.2 ⟨?_, ih _ _⟩
      intro b hb hurl' hurlb
      have hnot := mem_dedupGo_key_not_seen _ _ _ _ hb hurlb
      intro hcanon
      refine hnot ?_
      rw [← hcanon, ← show dedupKey i r' = Sum.inl (canonicalize_url r'.url) from by
        rw [dedupKey, if_neg hurl']]
      exact List.mem_cons_self _ _

/-- When all canonical keys are already distinct (and none is in `seen`), the
dedup loop keeps everything. -/
theorem dedupGo_all_kept :
    ∀ (rs : List Result) (seen : List DKey) (i : Nat),
    rs.Pairwise (fun a b => a.url ≠ "" → b.url ≠ "" →
        canonicalize_url a.url ≠ canonicalize_url b.url) →
    (∀ r ∈ rs, r.url ≠ "" → Sum.inl (canonicalize_url r.url) ∉ seen) →
    (∀ j : Nat, Sum.inr j ∈ seen → j < i) →
    dedupGo seen i rs = rs := by
  intro rs
  induction rs with
  | nil => intro seen i _ _ _; rfl
  | cons r rs ih =>
    intro seen i hpair hkeys hpos
    rcases List.pairwise_cons.1 hpair with ⟨hr, hpair'⟩
    have hnotin : ¬(keyMem (dedupKey i r) seen = true) := by
      rw [keyMem_iff]
      by_cases hurl : r.url = ""
      · rw [dedupKey, if_pos hurl]
        intro hmem
        exact lt_irrefl i (hpos i hmem)
      · rw [dedupKey, if_neg hurl]
        exact hkeys r (List.mem_cons_self _ _) hurl
    rw [dedupGo, if_neg hnotin]
    congr 1
    refine ih _ (i + 1) hpair' ?_ ?_
    · intro b hb hurlb hmem
      rcases List.mem_cons.1 hmem with hmem | hmem
      · by_cases hurl : r.url = ""
        · rw [dedupKey, if_pos hurl] at hmem
          cases hmem
        · rw [dedupKey, if_neg hurl] at hmem
          exact hr b hb hurl hurlb (Sum.inl.inj hmem).symm
      · exact hkeys b (List.mem_cons_of_mem _ hb) hurlb hmem
    · intro j hj
      rcases List.mem_cons.1 hj with hj | hj
      · by_cases hurl : r.url = ""
        · rw [dedupKey, if_pos hurl] at hj
          cases Sum.inr.inj hj
          exact Nat.lt_succ_self i
        · rw [dedupKey, if_neg hurl] at hj
          cases hj
      · exact Nat.lt_succ_of_lt (hpos j hj)

theorem mem_reRank : ∀ {l : List Result} {i : Int} {b : Result},
    b ∈ reRank i l → ∃ a ∈ l, b.url = a.url := by
  intro l
  induction l with
  | nil => intro i b hb; cases hb
  | cons r rs ih =>
    intro i b hb
    rcases List.mem_cons.1 hb with rfl | hb
    · exact ⟨r, List.mem_cons_self _ _, rfl⟩
    · obtain ⟨a, ha, hurl⟩ := ih hb
      exact ⟨a, List.mem_cons_of_mem _ ha, hurl⟩

theorem reRank_pairwise_keys {l : List Result} (i : Int)
    (h : l.Pairwise (fun a b => a.url ≠ "" → b.url ≠ "" →
        canonicalize_url a.url ≠ canonicalize_url b.url)) :
    (reRank i l).Pairwise (fun a b => a.url ≠ "" → b.url ≠ "" →
        canonicalize_url a.url ≠ canonicalize_url b.url) := by
  induction l generalizing i with
  | nil => simp [reRank]
  | cons r rs ih =>
    rcases List.pairwise_cons.1 h with ⟨hr, hrs⟩
    rw [reRank]
    refine List.pairwise_cons.2 ⟨?_, ih (i + 1) hrs⟩
    intro b hb
    obtain ⟨a, ha, hurl⟩ := mem_reRank hb
    intro h1 h2
    rw [hurl]
    exact hr a ha h1 (hurl ▸ h2)

theorem reRank_reRank : ∀ (l : List Result) (i j : Int),
    reRank i (reRank j l) = reRank i l := by
  intro l
  induction l with
  | nil => intro i j; rfl
  | cons r rs ih => intro i j; simp [reRank, ih]

/-- C7: `deduplicate` is idempotent. -/
theorem deduplicate_idempotent (results : List Result) :
    deduplicate (deduplicate results) = deduplicate results := by
  unfold deduplicate
  have hpair := dedupGo_pairwise_keys results [] 0
  have hpair' := reRank_pairwise_keys 1 hpair
  have hkept : dedupGo [] 0 (reRank 1 (dedupGo [] 0 results)) =
      reRank 1 (dedupGo [] 0 results) := by
    refine dedupGo_all_kept _ [] 0 hpair' ?_ ?_
    · intro r _ _ hmem
      cases hmem
    · intro j hj
      cases hj
  rw [hkept, reRank_reRank]

theorem pyLowerChar_ne_newline {c : Char} (h : c ≠ '\n') : pyLowerChar c ≠ '\n' := by
  have key : ∀ n : Nat, 97 ≤ n → n ≤ 122 → (Char.ofNat n).toNat = n := by
    intro n h1 h2
    have hv : n.isValidChar := Or.inl (by omega)
    simp [Char.ofNat, hv, Char.ofNatAux, Char.toNat, UInt32.toNat, BitVec.toNat_ofNatLt]
  rw [pyLowerChar]
  split
  · rename_i hc
    intro heq
    have htn := key (c.toNat + 32) (by omega) (by omega)
    have h10 : (Char.toNat '\n') = 10 := rfl
    rw [heq, h10] at htn
    omega
  · exact h

theorem no_newline_map_pyLower {cs : List Char} (h : '\n' ∉ cs) :
    '\n' ∉ cs.map pyLowerChar := by
  intro hmem
  obtain ⟨c, hc, hceq⟩ := List.mem_map.1 hmem
  by_cases hcn : c = '\n'
  · exact h (hcn ▸ hc)
  · exact pyLowerChar_ne_newline hcn hceq

theorem no_newline_pyStrip {cs : List Char} (h : '\n' ∉ cs) : '\n' ∉ pyStrip cs := by
  intro hmem
  rw [pyStrip] at hmem
  have h1 := List.mem_reverse.1 hmem
  have h2 := (List.dropWhile_sublist _).subset h1
  have h3 := List.mem_reverse.1 h2
  exact h ((List.dropWhile_sublist _).subset h3)

theorem stripSchemeWww_is_drop (cs : List Char) : ∃ n, stripSchemeWww cs = cs.drop n := by
  rw [stripSchemeWww]
  split
  · exact ⟨0, rfl⟩
  · rename_i r heq
    split at heq
    · cases Option.some.inj heq
      split
      · exact ⟨11, by rw [List.drop_drop]⟩
      · exact ⟨7, rfl⟩
    · split at heq
      · cases Option.some.inj heq
        split
        · exact ⟨12, by rw [List.drop_drop]⟩
        · exact ⟨8, rfl⟩
      · cases heq

theorem no_newline_stripScheme {cs : List Char} (h : '\n' ∉ cs) :
    '\n' ∉ stripSchemeWww cs := by
  obtain ⟨n, hn⟩ := stripSchemeWww_is_drop cs
  rw [hn]
  intro hmem
  exact h ((List.drop_sublist _ _).subset hmem)

theorem cutQueryFrag_eq_takeWhile {cs : List Char} (h : '\n' ∉ cs) :
    cutQueryFrag cs = cs.takeWhile (fun c => !(isQF c)) := by
  have hlast : ¬(cs.getLast? = some '\n') := fun hl => h (List.mem_of_mem_getLast? hl)
  rw [cutQueryFrag]
  simp only [if_neg hlast]
  have hrev : cs.reverse.takeWhile (fun c => c != '\n') = cs.reverse := by
    rw [List.takeWhile_eq_self_iff]
    intro x hx
    have hxn : x ≠ '\n' := fun hh => h (hh ▸ List.mem_reverse.1 hx)
    simpa using hxn
  rw [hrev, List.reverse_reverse]
  by_cases hany : cs.any isQF
  · rw [if_pos hany]
    simp [Nat.sub_self]
  · rw [if_neg hany]
    rw [eq_comm, List.takeWhile_eq_self_iff]
    intro x hx
    simp only [List.any_eq_true, not_exists, not_and] at hany
    simp [hany x hx]

theorem canonicalize_pipeline_agree {s : String} (h : '\n' ∉ s.data) :
    canonicalize_url s = canonPipelineSpec s := by
  rw [canonicalize_url, canonPipelineSpec, canonL]
  have h1 : '\n' ∉ pyStrip s.data := no_newline_pyStrip h
  have h2 : '\n' ∉ (pyStrip s.data).map pyLowerChar := no_newline_map_pyLower h1
  have h3 : '\n' ∉ stripSchemeWww ((pyStrip s.data).map pyLowerChar) :=
    no_newline_stripScheme h2
  rw [cutQueryFrag_eq_takeWhile h3]

/-- C6 counterexample: on a string containing a newline the `[#?].*$` regex
does not truncate at the first `?`/`#` (`.` cannot cross the newline), so
`canonicalize_url` differs from the spec's "truncate at the first `?` or `#`"
pipeline. -/
theorem canonicalize_url_newline_counterexample :
    canonicalize_url "a?b\nc" = "a?b\nc" ∧ canonPipelineSpec "a?b\nc" = "a" ∧
      canonicalize_url "a?b\nc" ≠ canonPipelineSpec "a?b\nc" := by decide

/-- C6 (amended): on every string without a newline character,
`canonicalize_url` is exactly the spec's pipeline (trim, lowercase, strip
scheme and `www.`, truncate at the first `?`/`#`, strip one trailing slash);
in particular the spec's concrete example holds. -/
theorem canonicalize_url_pipeline_on_newline_free :
    (∀ s : String, '\n' ∉ s.data → canonicalize_url s = canonPipelineSpec s)
    ∧ canonicalize_url "HTTPS://WWW.Example.com/page/" = "example.com/page"
    ∧ canonicalize_url "http://example.com/page" = "example.com/page" :=
  ⟨fun _ h => canonicalize_pipeline_agree h, by decide, by decide⟩

/-- Witness for the amended C6 at a concrete input. -/
theorem canonicalize_url_pipeline_on_newline_free_witness :
    canonicalize_url "https://foo.com/?q=1" = canonPipelineSpec "https://foo.com/?q=1" :=
  canonicalize_url_pipeline_on_newline_free.1 "https://foo.com/?q=1" (by decide)

theorem foldl_min_le_init : ∀ (l : List ℚ) (a : ℚ), l.foldl min a ≤ a := by
  intro l
  induction l with
  | nil => intro a; exact le_refl a
  | cons x xs ih => intro a; exact le_trans (ih (min a x)) (min_le_left a x)

theorem foldl_min_le_mem : ∀ (l : List ℚ) (a x : ℚ), x ∈ l → l.foldl min a ≤ x := by
  intro l
  induction l with
  | nil => intro a x hx; cases hx
  | cons y ys ih =>
    intro a x hx
    rcases List.mem_cons.1 hx with rfl | hx
    · exact le_trans (foldl_min_le_init ys (min a x)) (min_le_right a x)
    · exact ih (min a y) x hx

theorem init_le_foldl_max : ∀ (l : List ℚ) (a : ℚ), a ≤ l.foldl max a := by
  intro l
  induction l with
  | nil => intro a; exact le_refl a
  | cons x xs ih => intro a; exact le_trans (le_max_left a x) (ih (max a x))

theorem mem_le_foldl_max : ∀ (l : List ℚ) (a x : ℚ), x ∈ l → x ≤ l.foldl max a := by
  intro l
  induction l with
  | nil => intro a x hx; cases hx
  | cons y ys ih =>
    intro a x hx
    rcases List.mem_cons.1 hx with rfl | hx
    · exact le_trans (le_max_right a x) (init_le_foldl_max ys (max a x))
    · exact ih (max a y) x hx

theorem get_congr_list {l l' : List Result} (h : l = l') {i : Nat}
    (h1 : i < l.length) (h2 : i < l'.length) : l.get ⟨i, h1⟩ = l'.get ⟨i, h2⟩ := by
  subst h
  rfl

/-- C9: `minmax_normalize_scores` returns the input unchanged when no score is
present; sets every present score to `1.0` when `min == max`; otherwise
rescales each present score `s` to `(s - lo)/(hi - lo)`, a value in `[0, 1]`
with the minimum mapped to `0` and the maximum to `1`; results with an absent
score are left untouched in every case. -/
theorem minmax_normalize_scores_spec (results : List Result) :
    (presentScores results = [] → minmax_normalize_scores results = results)
    ∧ (minmax_normalize_scores results).length = results.length
    ∧ (∀ (i : Nat) (h1 : i < results.length) (h2 : i < (minmax_normalize_scores results).length),
        ((results.get ⟨i, h1⟩).score = none →
          (minmax_normalize_scores results).get ⟨i, h2⟩ = results.get ⟨i, h1⟩)
        ∧ (∀ q : ℚ, (results.get ⟨i, h1⟩).score = some q →
            (hiOf results = loOf results →
              (minmax_normalize_scores results).get ⟨i, h2⟩ =
                { results.get ⟨i, h1⟩ with score := some 1 })
            ∧ (hiOf results ≠ loOf results →
              (minmax_normalize_scores results).get ⟨i, h2⟩ =
                { results.get ⟨i, h1⟩ with
                  score := some ((q - loOf results) / (hiOf results - loOf results)) }
              ∧ 0 ≤ (q - loOf results) / (hiOf results - loOf results)
              ∧ (q - loOf results) / (hiOf results - loOf results) ≤ 1
              ∧ (q = loOf results → (q - loOf results) / (hiOf results - loOf results) = 0)
              ∧ (q = hiOf results →
                  (q - loOf results) / (hiOf results - loOf results) = 1)))) := by
  rcases hps : presentScores results with _ | ⟨s, ss⟩
  · have hmm : minmax_normalize_scores results = results := by
      rw [minmax_normalize_scores, hps]
    refine ⟨fun _ => hmm, by rw [hmm], ?_⟩
    intro i h1 h2
    constructor
    · intro _
      exact get_congr_list hmm h2 h1
    · intro q hq
      have hqmem : q ∈ presentScores results :=
        List.mem_filterMap.2 ⟨results.get ⟨i, h1⟩, List.get_mem _ _ _, hq⟩
      rw [hps] at hqmem
      cases hqmem
  · have hlo : loOf results = ss.foldl min s := by rw [loOf, hps]
    have hhi : hiOf results = ss.foldl max s := by rw [hiOf, hps]
    have hlos : ss.foldl min s ≤ s := foldl_min_le_init ss s
    have hshi : s ≤ ss.foldl max s := init_le_foldl_max ss s
    have hlohi : loOf results ≤ hiOf results := by
      rw [hlo, hhi]; exact le_trans hlos hshi
    by_cases heq : ss.foldl max s = ss.foldl min s
    · have hmm : minmax_normalize_scores results =
          results.map (fun r =>
            match r.score with
            | none => r
            | some _ => { r with score := some 1 }) := by
        rw [minmax_normalize_scores, hps]
        exact if_pos heq
      refine ⟨fun habs => absurd (hps ▸ habs) (List.cons_ne_nil s ss), (by rw [hmm]; simp), ?_⟩
      intro i h1 h2
      have hget : (minmax_normalize_scores results).get ⟨i, h2⟩ =
          (fun r =>
            match r.score with
            | none => r
            | some _ => { r with score := some 1 }) (results.get ⟨i, h1⟩) := by
        have h2' : i < (results.map (fun r =>
            match r.score with
            | none => r
            | some _ => { r with score := some 1 })).length := by
          simpa using h1
        calc (minmax_normalize_scores results).get ⟨i, h2⟩
            = (results.map _).get ⟨i, h2'⟩ := get_congr_list hmm h2 h2'
          _ = _ := by rw [List.get_eq_getElem, List.getElem_map]; rfl
      constructor
      · intro hnone
        rw [hget]
        simp only [List.get_eq_getElem] at hnone
        simp [hnone]
      · intro q hq
        refine ⟨fun _ => (by
          rw [hget]
          simp only [List.get_eq_getElem] at hq
          simp [hq]), fun habs => ?_⟩
        exact absurd (by rw [hhi, hlo, heq]) habs
    · have hmm : minmax_normalize_scores results =
          results.map (fun r =>
            match r.score with
            | none => r
            | some q => { r with
                score := some ((q - ss.foldl min s) / (ss.foldl max s - ss.foldl min s)) }) := by
        rw [minmax_normalize_scores, hps]
        exact if_neg heq
      have hlthi : loOf results < hiOf results :=
        lt_of_le_of_ne hlohi (by rw [hlo, hhi]; exact fun hh => heq hh.symm)
      have hpos : 0 < hiOf results - loOf results := sub_pos.2 hlthi
      refine ⟨fun habs => absurd (hps ▸ habs) (List.cons_ne_nil s ss), (by rw [hmm]; simp), ?_⟩
      intro i h1 h2
      have hget : (minmax_normalize_scores results).get ⟨i, h2⟩ =
          (fun r =>
            match r.score with
            | none => r
            | some q => { r with
                score := some ((q - ss.foldl min s) / (ss.foldl max s - ss.foldl min s)) })
            (results.get ⟨i, h1⟩) := by
        have h2' : i < (results.map (fun r =>
            match r.score with
            | none => r
            | some q => { r with
                score := some ((q - ss.foldl min s) / (ss.foldl max s - ss.foldl min s)) })).length := by
          simpa using h1
        calc (minmax_normalize_scores results).get ⟨i, h2⟩
            = (results.map _).get ⟨i, h2'⟩ := get_congr_list hmm h2 h2'
          _ = _ := by rw [List.get_eq_getElem, List.getElem_map]; rfl
      constructor
      · intro hnone
        rw [hget]
        simp only [List.get_eq_getElem] at hnone
        simp [hnone]
      · intro q hq
        have hqmem : q ∈ presentScores results :=
          List.mem_filterMap.2 ⟨results.get ⟨i, h1⟩, List.get_mem _ _ _, hq⟩
        rw [hps] at hqmem
        have hloq : loOf results ≤ q := by
          rw [hlo]
          rcases List.mem_cons.1 hqmem with rfl | hmem
          · exact hlos
          · exact foldl_min_le_mem ss s q hmem
        have hqhi : q ≤ hiOf results := by
          rw [hhi]
          rcases List.mem_cons.1 hqmem with rfl | hmem
          · exact hshi
          · exact mem_le_foldl_max ss s q hmem
        refine ⟨fun habs => absurd habs (by rw [hhi, hlo]; exact fun hh => heq hh), ?_⟩
        intro _
        refine ⟨(by
          rw [hget]
          simp only [List.get_eq_getElem] at hq
          simp [hq, hlo, hhi]), ?_, ?_, ?_, ?_⟩
        · exact div_nonneg (sub_nonneg.2 hloq) (le_of_lt hpos)
        · rw [div_le_one hpos]
          exact sub_le_sub_right hqhi _
        · intro hqlo
          rw [hqlo, sub_self, zero_div]
        · intro hqhi'
          rw [hqhi']
          exact div_self (ne_of_gt hpos)

theorem hGet_cons (p : Nat × Result) (h : Heap) (a : Nat) :
    hGet (p :: h) a = if p.1 = a then some p.2 else hGet h a := by
  by_cases hp : p.1 = a <;> simp [hGet, List.find?_cons, hp]

theorem hGet_hSet_self (h : Heap) (a : Nat) (r : Result) :
    hGet (hSet h a r) a = (hGet h a).map (fun _ => r) := by
  induction h with
  | nil => rfl
  | cons p ps ih =>
    by_cases hp : p.1 = a
    · simp only [hSet, List.map_cons, if_pos hp]
      rw [hGet_cons, hGet_cons, if_pos rfl, if_pos hp]
      rfl
    · simp only [hSet, List.map_cons, if_neg hp]
      rw [hGet_cons, hGet_cons, if_neg hp, if_neg hp]
      exact ih

theorem hGet_hSet_ne (h : Heap) {a x : Nat} (hne : x ≠ a) (r : Result) :
    hGet (hSet h a r) x = hGet h x := by
  induction h with
  | nil => rfl
  | cons p ps ih =>
    by_cases hp : p.1 = a
    · simp only [hSet, List.map_cons, if_pos hp]
      rw [hGet_cons, hGet_cons, if_neg (show ¬(a = x) from fun hh => hne hh.symm),
        if_neg (show ¬(p.1 = x) from hp ▸ fun hh => hne hh.symm)]
      exact ih
    · simp only [hSet, List.map_cons, if_neg hp]
      rw [hGet_cons, hGet_cons]
      by_cases hpx : p.1 = x
      · rw [if_pos hpx, if_pos hpx]
      · rw [if_neg hpx, if_neg hpx]
        exact ih

/-- Witness for C9 at a concrete input. -/
theorem minmax_normalize_scores_spec_witness :
    minmax_normalize_scores [emptyR] = [emptyR] ∧
      (minmax_normalize_scores [emptyR]).get ⟨0, by decide⟩ = [emptyR].get ⟨0, by decide⟩ :=
  ⟨(minmax_normalize_scores_spec [emptyR]).1 rfl,
   ((minmax_normalize_scores_spec [emptyR]).2.2 0 (by decide) (by decide)).1 rfl⟩

theorem allocOut_hGet_lt : ∀ (l : List Acc) (h : Heap) (i : Int) (next : Nat) (a : Nat),
    a < next → hGet (allocOut h i next l).1 a = hGet h a := by
  intro l
  induction l with
  | nil => intro h i next a _; rfl
  | cons x xs ih =>
    intro h i next a ha
    rw [allocOut]
    have := ih ((next, { x.rep with rank := some i, source := "fused", score := some x.score }) :: h)
      (i + 1) (next + 1) a (Nat.lt_succ_of_lt ha)
    rw [this, hGet_cons, if_neg (Nat.ne_of_gt ha)]

theorem allocOut_out_ge : ∀ (l : List Acc) (h : Heap) (i : Int) (next : Nat),
    ∀ a ∈ (allocOut h i next l).2.1, next ≤ a := by
  intro l
  induction l with
  | nil => intro h i next a ha; cases ha
  | cons x xs ih =>
    intro h i next a ha
    rw [allocOut] at ha
    rcases List.mem_cons.1 ha with rfl | ha
    · exact le_refl a
    · exact Nat.le_of_succ_le (ih _ (i + 1) (next + 1) a ha)

theorem allocOut_values : ∀ (l : List Acc) (h : Heap) (i : Int) (next : Nat),
    ((allocOut h i next l).2.1).map (hGet (allocOut h i next l).1) =
      (finalize i l).map some := by
  intro l
  induction l with
  | nil => intro h i next; rfl
  | cons x xs ih =>
    intro h i next
    rw [allocOut, finalize, List.map_cons, List.map_cons]
    refine congrArg₂ _ ?_ ?_
    · rw [allocOut_hGet_lt xs _ (i + 1) (next + 1) next (Nat.lt_succ_self next),
        hGet_cons, if_pos rfl]
    · exact ih _ (i + 1) (next + 1)

theorem dedupGoH_sublist (h : Heap) : ∀ (addrs : List Nat) (seen : List DKey),
    List.Sublist (dedupGoH h seen addrs) addrs := by
  intro addrs
  induction addrs with
  | nil => intro seen; exact List.Sublist.refl []
  | cons a as ih =>
    intro seen
    rw [dedupGoH]
    by_cases hk : keyMem (dedupKeyH h a) seen = true
    · rw [if_pos hk]
      exact List.Sublist.cons a (ih seen)
    · rw [if_neg hk]
      exact List.Sublist.cons₂ a (ih _)

theorem mem_dedupGoH_key_not_seen (h : Heap) :
    ∀ (addrs : List Nat) (seen : List DKey) (a : Nat),
    a ∈ dedupGoH h seen addrs → dedupKeyH h a ∉ seen := by
  intro addrs
  induction addrs with
  | nil => intro seen a ha; cases ha
  | cons b bs ih =>
    intro seen a ha
    rw [dedupGoH] at ha
    by_cases hk : keyMem (dedupKeyH h b) seen = true
    · rw [if_pos hk] at ha
      exact ih seen a ha
    · rw [if_neg hk] at ha
      rcases List.mem_cons.1 ha with rfl | ha
      · intro hmem
        exact hk ((keyMem_iff _ _).2 hmem)
      · intro hmem
        exact ih _ a ha (List.mem_cons_of_mem _ hmem)

theorem dedupGoH_nodup (h : Heap) : ∀ (addrs : List Nat) (seen : List DKey),
    (dedupGoH h seen addrs).Nodup := by
  intro addrs
  induction addrs with
  | nil => intro seen; simp [dedupGoH]
  | cons b bs ih =>
    intro seen
    rw [dedupGoH]
    by_cases hk : keyMem (dedupKeyH h b) seen = true
    · rw [if_pos hk]
      exact ih seen
    · rw [if_neg hk]
      refine List.Nodup.cons ?_ (ih _)
      intro hmem
      exact mem_dedupGoH_key_not_seen h bs _ b hmem (List.mem_cons_self _ _)

theorem writeRanksH_hGet_not_mem : ∀ (u : List Nat) (h : Heap) (i : Int) (x : Nat),
    x ∉ u → hGet (writeRanksH h i u) x = hGet h x := by
  intro u
  induction u with
  | nil => intro h i x _; rfl
  | cons a as ih =>
    intro h i x hx
    rw [writeRanksH]
    have hxa : x ≠ a := fun hh => hx (hh ▸ List.mem_cons_self _ _)
    rw [ih _ (i + 1) x (fun hh => hx (List.mem_cons_of_mem _ hh)), hGet_hSet_ne _ hxa]

theorem writeRanksH_hGet_at : ∀ (u : List Nat) (h : Heap) (i : Int), u.Nodup →
    ∀ (j : Nat) (hj : j < u.length),
    hGet (writeRanksH h i u) (u.get ⟨j, hj⟩) =
      (hGet h (u.get ⟨j, hj⟩)).map (fun r => { r with rank := some (i + (j : Int)) }) := by
  intro u
  induction u with
  | nil => intro h i _ j hj; cases hj
  | cons a as ih =>
    intro h i hnodup j hj
    rcases List.nodup_cons.1 hnodup with ⟨hnotmem, hnodup'⟩
    rw [writeRanksH]
    match j with
    | 0 =>
      rw [show (a :: as).get ⟨0, hj⟩ = a from rfl]
      rw [writeRanksH_hGet_not_mem as _ (i + 1) a hnotmem, hGet_hSet_self]
      rcases hget : hGet h a with _ | r₀
      · rfl
      · have hderef : derefH h a = r₀ := by rw [derefH, hget]; rfl
        simp [hderef]
    | Nat.succ jp =>
      have hj' : jp < as.length := Nat.lt_of_succ_lt_succ hj
      rw [show (a :: as).get ⟨jp + 1, hj⟩ = as.get ⟨jp, hj'⟩ from rfl]
      rw [ih _ (i + 1) hnodup' jp hj']
      have hne : as.get ⟨jp, hj'⟩ ≠ a := fun hh => hnotmem (hh ▸ List.get_mem _ _ _)
      rw [hGet_hSet_ne _ hne]
      have : i + 1 + (jp : Int) = i + ((jp : Nat) + 1 : Nat) := by push_cast; ring
      rw [this]

/-- C10: in the store-passing embedding, both fusion functions leave every
pre-existing record (in particular every input list and record) unchanged and
return freshly allocated copies whose values are exactly the pure fusion
output (the representative with `rank`, `source`, `score` overwritten);
`deduplicate`, in contrast, returns the surviving input addresses themselves
and overwrites the `rank` of those records in place. -/
theorem fusion_copies_dedup_mutates_in_place :
    (∀ (h : Heap) (lists : List (List Nat)) (k : Int) (next : Nat) (a : Nat),
      a < next → hGet (rrfFusionH h lists k next).1 a = hGet h a)
    ∧ (∀ (h : Heap) (lists : List (List Nat)) (k : Int) (next : Nat),
        (∀ a ∈ (rrfFusionH h lists k next).2.1, next ≤ a)
        ∧ ((rrfFusionH h lists k next).2.1.map (hGet (rrfFusionH h lists k next).1) =
            (rrf_fusion (lists.map (fun l => l.map (derefH h))) k).map some))
    ∧ (∀ (h : Heap) (lists : List (List Nat)) (next : Nat) (a : Nat),
      a < next → hGet (combsumFusionH h lists next).1 a = hGet h a)
    ∧ (∀ (h : Heap) (lists : List (List Nat)) (next : Nat),
        (∀ a ∈ (combsumFusionH h lists next).2.1, next ≤ a)
        ∧ ((combsumFusionH h lists next).2.1.map (hGet (combsumFusionH h lists next).1) =
            (combsum_fusion (lists.map (fun l => l.map (derefH h)))).map some))
    ∧ (∀ (h : Heap) (addrs : List Nat),
        List.Sublist (deduplicateH h addrs).2 addrs
        ∧ (∀ x, x ∉ (deduplicateH h addrs).2 → hGet (deduplicateH h addrs).1 x = hGet h x)
        ∧ (∀ (j : Nat) (hj : j < (deduplicateH h addrs).2.length),
            hGet (deduplicateH h addrs).1 ((deduplicateH h addrs).2.get ⟨j, hj⟩) =
              (hGet h ((deduplicateH h addrs).2.get ⟨j, hj⟩)).map
                (fun r => { r with rank := some (1 + (j : Int)) }))) := by
  refine ⟨?_, ?_, ?_, ?_, ?_⟩
  · intro h lists k next a ha
    exact allocOut_hGet_lt _ h 1 next a ha
  · intro h lists k next
    exact ⟨allocOut_out_ge _ h 1 next, allocOut_values _ h 1 next⟩
  · intro h lists next a ha
    exact allocOut_hGet_lt _ h 1 next a ha
  · intro h lists next
    exact ⟨allocOut_out_ge _ h 1 next, allocOut_values _ h 1 next⟩
  · intro h addrs
    refine ⟨dedupGoH_sublist h addrs [], ?_, ?_⟩
    · intro x hx
      exact writeRanksH_hGet_not_mem _ h 1 x hx
    · intro j hj
      exact writeRanksH_hGet_at _ h 1 (dedupGoH_nodup h addrs []) j hj

/-- Witness for C10 at a concrete heap: fusion leaves address 0 intact,
dedup leaves the dropped duplicate's record (address 1) untouched while
rewriting the survivor's rank in place. -/
theorem fusion_copies_dedup_mutates_in_place_witness :
    hGet (rrfFusionH exHeap [[0, 1]] 60 5).1 0 = hGet exHeap 0
    ∧ hGet (deduplicateH exHeap [0, 1]).1 1 = hGet exHeap 1 :=
  ⟨fusion_copies_dedup_mutates_in_place.1 exHeap [[0, 1]] 60 5 0 (by decide),
   (fusion_copies_dedup_mutates_in_place.2.2.2.2 exHeap [0, 1]).2.1 1 (by decide)⟩

end MetaSearch
